import Mathlib

/-!
Verification of the scoped-chain core of the `scoped` repository
(src/include/scoped.h).  The C++ class `abstract_scoped<T, Tags...>`
maintains, per thread and per (payload type, tag list), an intrusive
doubly linked list of stack-resident nodes anchored by the thread-local
pointers `s_top` and `s_bottom`.  We embed one such chain shallowly:
node identities are natural numbers (addresses), the node memory is a
total function from identities to link records, and every member
function of the C++ class becomes a state-passing Lean function
transcribed statement by statement.
-/

namespace Scoped

/-- The link fields of one `abstract_scoped` node: `m_next` points toward
the bottom of the chain, `m_prev` toward the top (both nullable). -/
structure Node where
  m_next : Option Nat
  m_prev : Option Nat
  deriving DecidableEq, Repr

/-- A fully detached node: both link fields null, as established by the
member initializer list `m_next(nullptr), m_prev(nullptr)`. -/
def Node.clean : Node := ⟨none, none⟩

/-- The state of one chain: the node memory plus the thread-local anchors
`s_top` and `s_bottom`. -/
structure Chain where
  mem : Nat → Node
  s_top : Option Nat
  s_bottom : Option Nat

/-- The chain with no nodes ever constructed: both thread-local anchors
are value-initialized to null and every address holds a clean record. -/
def emptyChain : Chain := ⟨fun _ => Node.clean, none, none⟩

/-- Write one node's record (a C++ assignment to the fields of node `i`). -/
def setNode (c : Chain) (i : Nat) (v : Node) : Chain :=
  { c with mem := fun j => if j = i then v else c.mem j }

/-- `i->m_next = v`. -/
def setNext (c : Chain) (i : Nat) (v : Option Nat) : Chain :=
  setNode c i { c.mem i with m_next := v }

/-- `i->m_prev = v`. -/
def setPrev (c : Chain) (i : Nat) (v : Option Nat) : Chain :=
  setNode c i { c.mem i with m_prev := v }

/-- `abstract_scoped::is_attached`:
`return m_next || m_prev || (s_top == this) || (s_bottom == this);` -/
def is_attached (c : Chain) (i : Nat) : Bool :=
  (c.mem i).m_next.isSome || (c.mem i).m_prev.isSome ||
    (c.s_top == some i) || (c.s_bottom == some i)

/-- The fallback at the head of `abstract_scoped::insert`:
`if (above && !above->is_attached()) above = s_top;` -/
def resolveAbove (c : Chain) (above : Option Nat) : Option Nat :=
  match above with
  | some a => if is_attached c a then some a else c.s_top
  | none => none

/-- `abstract_scoped::insert(abstract_scoped* above)`, transcribed
statement by statement (`self` plays the role of `this`):
`m_next = above; m_prev = above ? above->m_prev : s_bottom;`
`if (m_prev) m_prev->m_next = this; else s_top = this;`
`if (m_next) m_next->m_prev = this; else s_bottom = this;` -/
def insert (c : Chain) (self : Nat) (above₀ : Option Nat) : Chain :=
  let above := resolveAbove c above₀
  let c₁ := setNext c self above
  let c₂ := setPrev c₁ self (match above with
    | some a => (c₁.mem a).m_prev
    | none => c₁.s_bottom)
  let c₃ := match (c₂.mem self).m_prev with
    | some p => setNext c₂ p (some self)
    | none => { c₂ with s_top := some self }
  match (c₃.mem self).m_next with
  | some n => setPrev c₃ n (some self)
  | none => { c₃ with s_bottom := some self }

/-- `abstract_scoped::detach()`, transcribed statement by statement:
`if (!is_attached()) return;`
`if (m_next) m_next->m_prev = m_prev; if (m_prev) m_prev->m_next = m_next;`
`if (s_top == this) s_top = m_next; if (s_bottom == this) s_bottom = m_prev;`
`m_next = m_prev = nullptr;` -/
def detach (c : Chain) (self : Nat) : Chain :=
  if is_attached c self = false then c
  else
    let c₁ := match (c.mem self).m_next with
      | some nx => setPrev c nx (c.mem self).m_prev
      | none => c
    let c₂ := match (c₁.mem self).m_prev with
      | some pv => setNext c₁ pv (c₁.mem self).m_next
      | none => c₁
    let c₃ := if c₂.s_top == some self then { c₂ with s_top := (c₂.mem self).m_next } else c₂
    let c₄ := if c₃.s_bottom == some self then { c₃ with s_bottom := (c₃.mem self).m_prev } else c₃
    setNode c₄ self Node.clean

/-- The default constructor: member initializers null the link fields,
then `insert(s_top)` runs. -/
def ctor_default (c : Chain) (self : Nat) : Chain :=
  insert (setNode c self Node.clean) self c.s_top

/-- The copy constructor: member initializers null the link fields, then
`insert(const_cast<abstract_scoped*>(&other))` runs. -/
def ctor_copy (c : Chain) (self other : Nat) : Chain :=
  insert (setNode c self Node.clean) self (some other)

/-- The move constructor: `insert(&other); other.detach();`. -/
def ctor_move (c : Chain) (self other : Nat) : Chain :=
  detach (ctor_copy c self other) other

/-- Copy assignment `operator=(const abstract_scoped&)`: the body only
runs the invariant assertions and returns `*this`; no link is touched. -/
def copy_assign_links (c : Chain) : Chain := c

/-- Move assignment `operator=(abstract_scoped&& other)`: `other.detach();`. -/
def move_assign (c : Chain) (other : Nat) : Chain :=
  detach c other

/-- The destructor: `detach()`. -/
def dtor (c : Chain) (self : Nat) : Chain :=
  detach c self

/-- `abstract_scoped::top()`: `return s_top;`. -/
def top (c : Chain) : Option Nat := c.s_top

/-- `abstract_scoped::bottom()`: `return s_bottom;`. -/
def bottom (c : Chain) : Option Nat := c.s_bottom

/-- `abstract_scoped::next()`: `return m_next;`. -/
def next (c : Chain) (i : Nat) : Option Nat := (c.mem i).m_next

/-- `abstract_scoped::prev()`: `return m_prev;`. -/
def prev (c : Chain) (i : Nat) : Option Nat := (c.mem i).m_prev

/-- The saved anchors held by a `scoped_haven`. -/
structure Haven where
  m_saved_top : Option Nat
  m_saved_bottom : Option Nat
  deriving DecidableEq, Repr

/-- `scoped_haven::scoped_haven()`: captures `top()`/`bottom()` into the
members, then nulls both thread-local anchors. -/
def haven_ctor (c : Chain) : Haven × Chain :=
  (⟨c.s_top, c.s_bottom⟩, { c with s_top := none, s_bottom := none })

/-- `scoped_haven::~scoped_haven()`: writes the saved anchors back. -/
def haven_dtor (h : Haven) (c : Chain) : Chain :=
  { c with s_top := h.m_saved_top, s_bottom := h.m_saved_bottom }

/-- A holder chain: the link structure plus the integer payload stored in
each node's `m_value` (payloads taken as integers for concreteness). -/
structure HChain where
  chain : Chain
  values : Nat → Int

/-- `scoped::get()` from src/scoped.h:
`return s_top ? &(s_top->m_value) : nullptr;`. -/
def get (hc : HChain) : Option Int :=
  match hc.chain.s_top with
  | some i => some (hc.values i)
  | none => none

/-- `polymorphic_scoped::operator=(const polymorphic_scoped&) = default`:
the defaulted operator copy-assigns the `abstract_scoped` base (which
leaves every link untouched) and copy-assigns the payload `m_value`. -/
def copy_assign (hc : HChain) (dst src : Nat) : HChain :=
  { chain := copy_assign_links hc.chain,
    values := fun j => if j = dst then hc.values src else hc.values j }

/-! ## The representation invariant

`repOK c l` states that `l` is exactly the sequence of attached nodes of
chain `c`, listed from top to bottom: the anchors point at the two ends,
the end nodes carry null outward links, consecutive nodes are doubly
linked, and no node occurs twice. -/

/-- Nodes `a` and `b` are properly doubly linked, `a` directly above `b`. -/
def adj (c : Chain) (a b : Nat) : Prop :=
  (c.mem a).m_next = some b ∧ (c.mem b).m_prev = some a

instance (c : Chain) (a b : Nat) : Decidable (adj c a b) :=
  inferInstanceAs (Decidable (_ = _ ∧ _ = _))

/-- Executable check that consecutive nodes of `l` are doubly linked. -/
def linksOK (c : Chain) : List Nat → Bool
  | [] => true
  | [_] => true
  | a :: b :: l =>
    ((c.mem a).m_next == some b) && ((c.mem b).m_prev == some a) && linksOK c (b :: l)

theorem linksOK_iff {c : Chain} : ∀ {l : List Nat},
    linksOK c l = true ↔ List.Chain' (adj c) l
  | [] => by simp [linksOK]
  | [a] => by simp [linksOK]
  | a :: b :: l => by
    simp only [linksOK, Bool.and_eq_true, beq_iff_eq, List.chain'_cons]
    rw [linksOK_iff]
    unfold adj
    tauto

/-- `l` is the list of attached nodes of `c`, from top to bottom. -/
def repOK (c : Chain) (l : List Nat) : Prop :=
  c.s_top = l.head? ∧ c.s_bottom = l.getLast? ∧
  (l.head?.all fun a => (c.mem a).m_prev == none) = true ∧
  (l.getLast?.all fun a => (c.mem a).m_next == none) = true ∧
  linksOK c l = true ∧ l.Nodup

instance (c : Chain) (l : List Nat) : Decidable (repOK c l) :=
  inferInstanceAs (Decidable (_ = _ ∧ _ = _ ∧ _ = _ ∧ _ = _ ∧ _ = _ ∧ List.Nodup _))

/-- `repOK` plus: every address outside `l` holds a clean record (no node
object exists there, so its storage carries no stale links). -/
def repFull (c : Chain) (l : List Nat) : Prop :=
  repOK c l ∧ ∀ i, i ∉ l → c.mem i = Node.clean

/-- Walking via `next()` with the given fuel, collecting the visited
nodes; each step is a pure pointer read, stopping at null. -/
def walkNext (c : Chain) : Nat → Option Nat → List Nat
  | 0, _ => []
  | _, none => []
  | fuel + 1, some i => i :: walkNext c fuel (c.mem i).m_next

/-- Walking via `prev()` with the given fuel. -/
def walkPrev (c : Chain) : Nat → Option Nat → List Nat
  | 0, _ => []
  | _, none => []
  | fuel + 1, some i => i :: walkPrev c fuel (c.mem i).m_prev

/-- The chain states reachable by one thread through the public
operations on one (payload type, tag) chain: starting from the
value-initialized anchors, attaching a fresh node with the default
constructor (`insert(s_top)`), attaching a fresh node with the
copy/move constructor (`insert(&other)`), and detaching a node
(destructor, move-assignment source). -/
inductive Reaches : Chain → Prop
  | init : Reaches emptyChain
  | attachDefault (c : Chain) (i : Nat) : Reaches c →
      is_attached c i = false → Reaches (ctor_default c i)
  | attachAbove (c : Chain) (i t : Nat) : Reaches c →
      is_attached c i = false → Reaches (ctor_copy c i t)
  | doDetach (c : Chain) (i : Nat) : Reaches c → Reaches (detach c i)

/-- Operations performed by code nested inside a haven: the same public
operations, restricted to node addresses distinct from the hidden outer
nodes (whose storage is still alive, so no new object can occupy it). -/
inductive Nested (avoid : List Nat) : Chain → Chain → Prop
  | refl (c : Chain) : Nested avoid c c
  | attachDefault (c c' : Chain) (i : Nat) : Nested avoid c c' →
      is_attached c' i = false → i ∉ avoid → Nested avoid c (ctor_default c' i)
  | attachAbove (c c' : Chain) (i t : Nat) : Nested avoid c c' →
      is_attached c' i = false → i ∉ avoid → t ∉ avoid →
      Nested avoid c (ctor_copy c' i t)
  | doDetach (c c' : Chain) (i : Nat) : Nested avoid c c' → i ∉ avoid →
      Nested avoid c (detach c' i)

/-- The invariant maintained by nested operations performed under a haven
whose hidden outer nodes are `avoid`: the nested chain `l₂` never touches
the hidden nodes, the hidden nodes' records are untouched, and addresses
used by neither side stay clean. -/
def NestedInv (avoid : List Nat) (c₀ c₂ : Chain) : Prop :=
  ∃ l₂, repOK c₂ l₂ ∧ (∀ u ∈ l₂, u ∉ avoid) ∧
    (∀ i ∈ avoid, c₂.mem i = c₀.mem i) ∧
    (∀ i, i ∉ l₂ → i ∉ avoid → c₂.mem i = Node.clean)

/-- A concrete two-node chain (node 1 on top, node 2 at the bottom),
used to instantiate the universally quantified theorems. -/
def cBase : Chain :=
  ⟨fun j => if j = 1 then ⟨some 2, none⟩
    else if j = 2 then ⟨none, some 1⟩ else Node.clean,
   some 1, some 2⟩

/-- A concrete one-node chain (node 1 both top and bottom). -/
def cOne : Chain :=
  ⟨fun _ => Node.clean, some 1, some 1⟩

/-! ## Basic lemmas about state updates -/

theorem Chain.ext_mem {c₁ c₂ : Chain} (hm : ∀ i, c₁.mem i = c₂.mem i)
    (ht : c₁.s_top = c₂.s_top) (hb : c₁.s_bottom = c₂.s_bottom) : c₁ = c₂ := by
  cases c₁; cases c₂
  simp only [Chain.mk.injEq]
  exact ⟨funext hm, ht, hb⟩


@[simp] theorem setNode_mem_self (c : Chain) (i : Nat) (v : Node) :
    (setNode c i v).mem i = v := by
  simp [setNode]

theorem setNode_mem_ne (c : Chain) {i j : Nat} (v : Node) (h : j ≠ i) :
    (setNode c i v).mem j = c.mem j := by
  simp [setNode, h]

@[simp] theorem setNode_s_top (c : Chain) (i : Nat) (v : Node) :
    (setNode c i v).s_top = c.s_top := rfl

@[simp] theorem setNode_s_bottom (c : Chain) (i : Nat) (v : Node) :
    (setNode c i v).s_bottom = c.s_bottom := rfl

@[simp] theorem setNext_mem_self (c : Chain) (i : Nat) (v : Option Nat) :
    (setNext c i v).mem i = { c.mem i with m_next := v } := by
  simp [setNext]

theorem setNext_mem_ne (c : Chain) {i j : Nat} (v : Option Nat) (h : j ≠ i) :
    (setNext c i v).mem j = c.mem j := by
  simp [setNext, setNode_mem_ne _ _ h]

@[simp] theorem setNext_s_top (c : Chain) (i : Nat) (v : Option Nat) :
    (setNext c i v).s_top = c.s_top := rfl

@[simp] theorem setNext_s_bottom (c : Chain) (i : Nat) (v : Option Nat) :
    (setNext c i v).s_bottom = c.s_bottom := rfl

@[simp] theorem setPrev_mem_self (c : Chain) (i : Nat) (v : Option Nat) :
    (setPrev c i v).mem i = { c.mem i with m_prev := v } := by
  simp [setPrev]

theorem setPrev_mem_ne (c : Chain) {i j : Nat} (v : Option Nat) (h : j ≠ i) :
    (setPrev c i v).mem j = c.mem j := by
  simp [setPrev, setNode_mem_ne _ _ h]

@[simp] theorem setPrev_s_top (c : Chain) (i : Nat) (v : Option Nat) :
    (setPrev c i v).s_top = c.s_top := rfl

@[simp] theorem setPrev_s_bottom (c : Chain) (i : Nat) (v : Option Nat) :
    (setPrev c i v).s_bottom = c.s_bottom := rfl

/-! ## List and option helpers -/

theorem optAll_iff {o : Option Nat} {p : Nat → Bool} :
    o.all p = true ↔ ∀ a, o = some a → p a = true := by
  cases o <;> simp [Option.all]

theorem mem_of_head? {l : List Nat} {a : Nat} (h : l.head? = some a) : a ∈ l := by
  cases l with
  | nil => simp at h
  | cons b t => simp_all

theorem mem_of_getLast? {l : List Nat} {a : Nat} (h : l.getLast? = some a) : a ∈ l := by
  induction l with
  | nil => simp at h
  | cons b t ih =>
    cases t with
    | nil => simp_all
    | cons u v =>
      rw [List.getLast?_cons_cons] at h
      exact List.mem_cons_of_mem _ (ih h)

theorem getLast?_append_cons (l₁ l₂ : List Nat) (x : Nat) :
    (l₁ ++ x :: l₂).getLast? = (x :: l₂).getLast? := by
  induction l₁ with
  | nil => rfl
  | cons a t ih =>
    cases t with
    | nil => simp [List.getLast?_cons_cons, ih]
    | cons u v => simpa [List.getLast?_cons_cons] using ih

/-! ## Congruence: the invariant only reads fields of listed nodes -/

theorem chain'_adj_of_eq_on {c c' : Chain} : ∀ {l : List Nat},
    (∀ u ∈ l.dropLast, (c'.mem u).m_next = (c.mem u).m_next) →
    (∀ u ∈ l.tail, (c'.mem u).m_prev = (c.mem u).m_prev) →
    List.Chain' (adj c) l → List.Chain' (adj c') l
  | [], _, _, _ => List.chain'_nil
  | [_], _, _, _ => List.chain'_singleton _
  | a :: b :: l, hn, hp, h => by
    rw [List.chain'_cons] at h ⊢
    refine ⟨⟨?_, ?_⟩, ?_⟩
    · rw [hn a (by simp [List.dropLast])]; exact h.1.1
    · rw [hp b (by simp)]; exact h.1.2
    · exact chain'_adj_of_eq_on
        (fun u hu => hn u (List.mem_cons_of_mem _ hu))
        (fun u hu => hp u (List.mem_cons_of_mem _ hu)) h.2

theorem repOK_congr {c c' : Chain} {l : List Nat}
    (hm : ∀ u ∈ l, c'.mem u = c.mem u)
    (ht : c'.s_top = c.s_top) (hb : c'.s_bottom = c.s_bottom) :
    repOK c l → repOK c' l := by
  rintro ⟨h₁, h₂, h₃, h₄, h₅, h₆⟩
  refine ⟨ht.trans h₁, hb.trans h₂, ?_, ?_, ?_, h₆⟩
  · rw [optAll_iff] at h₃ ⊢
    intro a ha
    rw [hm a (mem_of_head? ha)]
    exact h₃ a ha
  · rw [optAll_iff] at h₄ ⊢
    intro a ha
    rw [hm a (mem_of_getLast? ha)]
    exact h₄ a ha
  · rw [linksOK_iff] at h₅ ⊢
    exact chain'_adj_of_eq_on
      (fun u hu => by rw [hm u (List.dropLast_subset _ hu)])
      (fun u hu => by rw [hm u (List.tail_subset _ hu)]) h₅

/-! ## Facts extracted from the invariant -/

theorem repOK_split_fields {c : Chain} {l₁ l₂ : List Nat} {x : Nat}
    (h : repOK c (l₁ ++ x :: l₂)) :
    (c.mem x).m_next = l₂.head? ∧ (c.mem x).m_prev = l₁.getLast? := by
  obtain ⟨h₁, h₂, h₃, h₄, h₅, h₆⟩ := h
  rw [linksOK_iff, List.chain'_append] at h₅
  obtain ⟨hc₁, hc₂, hj⟩ := h₅
  constructor
  · cases l₂ with
    | nil =>
      rw [optAll_iff] at h₄
      have hx := h₄ x (by rw [getLast?_append_cons]; rfl)
      simpa using hx
    | cons b t =>
      rw [List.chain'_cons] at hc₂
      exact hc₂.1.1
  · cases hl : l₁.getLast? with
    | none =>
      have hnil : l₁ = [] := by
        cases l₁ with
        | nil => rfl
        | cons a t => simp [List.getLast?_eq_getLast] at hl
      subst hnil
      rw [optAll_iff] at h₃
      have hx := h₃ x rfl
      simpa using hx
    | some p =>
      exact (hj p (Option.mem_def.mpr hl) x (Option.mem_def.mpr rfl)).2

theorem attached_of_mem {c : Chain} {l : List Nat} {x : Nat}
    (h : repOK c l) (hx : x ∈ l) : is_attached c x = true := by
  obtain ⟨l₁, l₂, rfl⟩ := List.append_of_mem hx
  obtain ⟨hn, hp⟩ := repOK_split_fields h
  cases l₂ with
  | cons b t =>
    simp [is_attached, hn]
  | nil =>
    cases hl : l₁.getLast? with
    | some p => simp [is_attached, hp, hl]
    | none =>
      have hnil : l₁ = [] := by
        cases l₁ with
        | nil => rfl
        | cons a t => simp [List.getLast?_eq_getLast] at hl
      subst hnil
      have : c.s_top = some x := h.1
      simp [is_attached, this]

theorem not_mem_of_not_attached {c : Chain} {l : List Nat} {x : Nat}
    (h : repOK c l) (hx : is_attached c x = false) : x ∉ l :=
  fun hmem => by rw [attached_of_mem h hmem] at hx; cases hx

theorem detached_fields {c : Chain} {x : Nat} (hx : is_attached c x = false) :
    (c.mem x).m_next = none ∧ (c.mem x).m_prev = none ∧
    c.s_top ≠ some x ∧ c.s_bottom ≠ some x := by
  rw [is_attached] at hx
  simp only [Bool.or_eq_false_iff] at hx
  obtain ⟨⟨⟨h₁, h₂⟩, h₃⟩, h₄⟩ := hx
  refine ⟨?_, ?_, beq_eq_false_iff_ne.mp h₃, beq_eq_false_iff_ne.mp h₄⟩
  · cases hc : (c.mem x).m_next with
    | none => rfl
    | some a => rw [hc] at h₁; simp at h₁
  · cases hc : (c.mem x).m_prev with
    | none => rfl
    | some a => rw [hc] at h₂; simp at h₂

/-! ## Characterization of `detach` on an attached node -/

theorem getLast?_cons_exists (a : Nat) (t : List Nat) :
    ∃ p, (a :: t).getLast? = some p ∧ p ∈ a :: t :=
  ⟨(a :: t).getLast (by simp), List.getLast?_eq_getLast _ (by simp), List.getLast_mem _⟩

theorem detach_char {c : Chain} {l₁ l₂ : List Nat} {x : Nat}
    (h : repOK c (l₁ ++ x :: l₂)) :
    (detach c x).mem x = Node.clean ∧
    (∀ j, j ≠ x → l₁.getLast? ≠ some j → l₂.head? ≠ some j →
      (detach c x).mem j = c.mem j) ∧
    (∀ p, l₁.getLast? = some p →
      (detach c x).mem p = { c.mem p with m_next := l₂.head? }) ∧
    (∀ n, l₂.head? = some n →
      (detach c x).mem n = { c.mem n with m_prev := l₁.getLast? }) ∧
    (detach c x).s_top = (l₁ ++ l₂).head? ∧
    (detach c x).s_bottom = (l₁ ++ l₂).getLast? := by
  have hf := repOK_split_fields h
  have hatt := attached_of_mem h (List.mem_append_right l₁ (List.mem_cons_self x l₂))
  have hnd := h.2.2.2.2.2
  rw [List.nodup_append] at hnd
  have hxl₁ : x ∉ l₁ := fun hx => hnd.2.2 hx (List.mem_cons_self x l₂)
  have hxl₂ : x ∉ l₂ := (List.nodup_cons.mp hnd.2.1).1
  have htop := h.1
  have hbot := h.2.1
  rw [getLast?_append_cons] at hbot
  have hcond : ¬ (is_attached c x = false) := by simp [hatt]
  cases l₁ with
  | nil =>
    have hT : (c.s_top == some x) = true := by simp [htop]
    cases l₂ with
    | nil =>
      have hB : (c.s_bottom == some x) = true := by simp [hbot]
      have e : detach c x =
          setNode { c with s_top := none, s_bottom := none } x Node.clean := by
        unfold detach
        rw [if_neg hcond]
        simp only [hf.1, hf.2, List.head?_nil, List.getLast?_nil, setNode_s_top,
          setNode_s_bottom, hT, hB, if_true]
      refine ⟨?_, ?_, ?_, ?_, ?_, ?_⟩
      · rw [e]; simp
      · intro j hj _ _
        rw [e, setNode_mem_ne _ _ hj]
      · intro p hp; simp at hp
      · intro n hn; simp at hn
      · rw [e]; rfl
      · rw [e]; rfl
    | cons b t₂ =>
      have hxb : x ≠ b := fun hx => hxl₂ (hx ▸ List.mem_cons_self b t₂)
      obtain ⟨q, hq, hqmem⟩ := getLast?_cons_exists b t₂
      rw [List.getLast?_cons_cons, hq] at hbot
      have hqx : q ≠ x := fun hx => hxl₂ (hx ▸ hqmem)
      have hB : (c.s_bottom == some x) = false := by
        rw [hbot]; simp [hqx]
      have e : detach c x =
          setNode { setPrev c b none with s_top := some b } x Node.clean := by
        unfold detach
        rw [if_neg hcond]
        simp only [hf.1, hf.2, List.head?_cons, List.getLast?_nil,
          setPrev_mem_ne _ _ hxb, setPrev_s_top, setPrev_s_bottom,
          setNode_s_top, setNode_s_bottom, hT, hB, if_true, Bool.false_eq_true,
          if_false]
      refine ⟨?_, ?_, ?_, ?_, ?_, ?_⟩
      · rw [e]; simp
      · intro j hj _ hjb
        have hjb' : j ≠ b := fun hh => hjb (by rw [hh]; rfl)
        rw [e, setNode_mem_ne _ _ hj]
        exact setPrev_mem_ne _ _ hjb'
      · intro p hp; simp at hp
      · intro n hn
        simp only [List.head?_cons, Option.some.injEq] at hn
        subst hn
        rw [e, setNode_mem_ne _ _ (Ne.symm hxb)]
        simp
      · rw [e]; rfl
      · rw [e]
        show c.s_bottom = (b :: t₂).getLast?
        rw [hbot, hq]
  | cons a t₁ =>
    have hax : a ≠ x := fun hx => hxl₁ (hx ▸ List.mem_cons_self a t₁)
    obtain ⟨p, hp, hpmem⟩ := getLast?_cons_exists a t₁
    have hpx : p ≠ x := fun hx => hxl₁ (hx ▸ hpmem)
    have hxp : x ≠ p := Ne.symm hpx
    have htop' : c.s_top = some a := htop
    have hT : (c.s_top == some x) = false := by
      rw [htop']; simp [hax]
    cases l₂ with
    | nil =>
      have hB : (c.s_bottom == some x) = true := by simp [hbot]
      have e : detach c x =
          setNode { setNext c p none with s_bottom := some p } x Node.clean := by
        unfold detach
        rw [if_neg hcond]
        simp only [hf.1, hf.2, List.head?_nil, hp,
          setNext_mem_ne _ _ hxp, setNext_s_top, setNext_s_bottom,
          setNode_s_top, setNode_s_bottom, hT, hB, if_true, Bool.false_eq_true,
          if_false]
      refine ⟨?_, ?_, ?_, ?_, ?_, ?_⟩
      · rw [e]; simp
      · intro j hj hjp _
        have hjp' : j ≠ p := fun hh => hjp (by rw [hp, hh])
        rw [e, setNode_mem_ne _ _ hj]
        exact setNext_mem_ne _ _ hjp'
      · intro p' hp'
        rw [hp, Option.some.injEq] at hp'
        subst hp'
        rw [e, setNode_mem_ne _ _ hpx]
        simp
      · intro n hn; simp at hn
      · rw [e]
        have hs : (setNode { setNext c p none with s_bottom := some p }
            x Node.clean).s_top = c.s_top := rfl
        rw [hs, htop']; rfl
      · rw [e]
        have hs : (setNode { setNext c p none with s_bottom := some p }
            x Node.clean).s_bottom = some p := rfl
        rw [hs, List.append_nil, hp]
    | cons b t₂ =>
      have hxb : x ≠ b := fun hx => hxl₂ (hx ▸ List.mem_cons_self b t₂)
      have hbx : b ≠ x := Ne.symm hxb
      have hpb : p ≠ b := fun hh =>
        hnd.2.2 hpmem (by rw [hh]; exact List.mem_cons_of_mem _ (List.mem_cons_self b t₂))
      have hbp : b ≠ p := Ne.symm hpb
      obtain ⟨q, hq, hqmem⟩ := getLast?_cons_exists b t₂
      rw [List.getLast?_cons_cons, hq] at hbot
      have hqx : q ≠ x := fun hx => hxl₂ (hx ▸ hqmem)
      have hB : (c.s_bottom == some x) = false := by
        rw [hbot]; simp [hqx]
      have e : detach c x =
          setNode (setNext (setPrev c b (some p)) p (some b)) x Node.clean := by
        unfold detach
        rw [if_neg hcond]
        simp only [hf.1, hf.2, List.head?_cons, hp,
          setPrev_mem_ne _ _ hxb, setNext_mem_ne _ _ hxp,
          setPrev_s_top, setPrev_s_bottom, setNext_s_top, setNext_s_bottom,
          setNode_s_top, setNode_s_bottom, hT, hB, Bool.false_eq_true, if_false]
      refine ⟨?_, ?_, ?_, ?_, ?_, ?_⟩
      · rw [e]; simp
      · intro j hj hjp hjb
        have hjp' : j ≠ p := fun hh => hjp (by rw [hp, hh])
        have hjb' : j ≠ b := fun hh => hjb (by rw [hh]; rfl)
        rw [e, setNode_mem_ne _ _ hj, setNext_mem_ne _ _ hjp',
          setPrev_mem_ne _ _ hjb']
      · intro p' hp'
        rw [hp, Option.some.injEq] at hp'
        subst hp'
        rw [e, setNode_mem_ne _ _ hpx]
        simp [setPrev_mem_ne _ _ hpb]
      · intro n hn
        simp only [List.head?_cons, Option.some.injEq] at hn
        subst hn
        rw [e, setNode_mem_ne _ _ hbx, setNext_mem_ne _ _ hbp]
        simp [hp]
      · rw [e]
        have hs : (setNode (setNext (setPrev c b (some p)) p (some b))
            x Node.clean).s_top = c.s_top := rfl
        rw [hs, htop']; rfl
      · rw [e]
        have hs : (setNode (setNext (setPrev c b (some p)) p (some b))
            x Node.clean).s_bottom = c.s_bottom := rfl
        rw [hs, hbot, getLast?_append_cons, hq]

/-! ## Preservation of the invariant by `detach` -/

theorem detach_not_attached {c : Chain} {x : Nat}
    (hx : is_attached c x = false) : detach c x = c := by
  unfold detach
  rw [if_pos hx]

theorem getLast?_not_mem_dropLast {l : List Nat} (hnd : l.Nodup) {g : Nat}
    (hg : l.getLast? = some g) : g ∉ l.dropLast := by
  have hne : l ≠ [] := by
    intro hnil; subst hnil; simp at hg
  have heq := List.dropLast_append_getLast hne
  have hg' : l.getLast hne = g := by
    rw [List.getLast?_eq_getLast _ hne] at hg
    exact Option.some.injEq _ _ ▸ hg.symm ▸ rfl
  rw [← heq, List.nodup_append] at hnd
  intro hmem
  exact hnd.2.2 hmem (by rw [hg']; exact List.mem_singleton_self _)

theorem head?_not_mem_tail {l : List Nat} (hnd : l.Nodup) {a : Nat}
    (ha : l.head? = some a) : a ∉ l.tail := by
  cases l with
  | nil => simp at ha
  | cons b t =>
    simp only [List.head?_cons, Option.some.injEq] at ha
    subst ha
    exact (List.nodup_cons.mp hnd).1

theorem detach_repOK {c : Chain} {l₁ l₂ : List Nat} {x : Nat}
    (h : repOK c (l₁ ++ x :: l₂)) : repOK (detach c x) (l₁ ++ l₂) := by
  obtain ⟨hcx, hother, hcp, hcn, hstop, hsbot⟩ := detach_char h
  obtain ⟨h₁, h₂, h₃, h₄, h₅, h₆⟩ := h
  rw [List.nodup_append] at h₆
  have hnd₁ : l₁.Nodup := h₆.1
  have hnd₂ : l₂.Nodup := (List.nodup_cons.mp h₆.2.1).2
  have hxl₁ : x ∉ l₁ := fun hx => h₆.2.2 hx (List.mem_cons_self x l₂)
  have hxl₂ : x ∉ l₂ := (List.nodup_cons.mp h₆.2.1).1
  have hdisj : ∀ u, u ∈ l₁ → u ∈ l₂ → False := fun u hu₁ hu₂ =>
    h₆.2.2 hu₁ (List.mem_cons_of_mem _ hu₂)
  -- field preservation away from the patched neighbors
  have next_pres : ∀ j, j ≠ x → l₁.getLast? ≠ some j →
      ((detach c x).mem j).m_next = (c.mem j).m_next := by
    intro j hj hjp
    by_cases hjn : l₂.head? = some j
    · rw [hcn j hjn]
    · rw [hother j hj hjp hjn]
  have prev_pres : ∀ j, j ≠ x → l₂.head? ≠ some j →
      ((detach c x).mem j).m_prev = (c.mem j).m_prev := by
    intro j hj hjn
    by_cases hjp : l₁.getLast? = some j
    · rw [hcp j hjp]
    · rw [hother j hj hjp hjn]
  -- decompose the original chain condition
  rw [linksOK_iff, List.chain'_append] at h₅
  obtain ⟨hch₁, hch₂, hjunc⟩ := h₅
  have hch₂' : List.Chain' (adj c) l₂ := hch₂.tail
  refine ⟨hstop, hsbot, ?_, ?_, ?_, List.nodup_append.mpr ⟨hnd₁, hnd₂, hdisj⟩⟩
  · -- the new head has a null m_prev
    rw [optAll_iff]
    intro a ha
    have hax : a ≠ x := by
      intro hax; subst hax
      rcases List.mem_append.mp (mem_of_head? ha) with hm | hm
      · exact hxl₁ hm
      · exact hxl₂ hm
    cases l₁ with
    | nil =>
      simp only [List.nil_append] at ha
      rw [hcn a ha]
      simp
    | cons a₀ t₁ =>
      simp only [List.cons_append, List.head?_cons, Option.some.injEq] at ha
      have ham : a ∈ a₀ :: t₁ := by rw [← ha]; exact List.mem_cons_self _ _
      have hal₂ : l₂.head? ≠ some a := fun hmem =>
        hdisj a ham (mem_of_head? hmem)
      rw [optAll_iff] at h₃
      have hold := h₃ a (by rw [List.cons_append, List.head?_cons, ha])
      rw [beq_iff_eq] at hold ⊢
      rw [prev_pres a hax hal₂, hold]
  · -- the new last has a null m_next
    rw [optAll_iff]
    intro a ha
    have hax : a ≠ x := by
      intro hax; subst hax
      rcases List.mem_append.mp (mem_of_getLast? ha) with hm | hm
      · exact hxl₁ hm
      · exact hxl₂ hm
    cases l₂ with
    | nil =>
      rw [List.append_nil] at ha
      rw [beq_iff_eq, hcp a ha]
      simp
    | cons b t₂ =>
      rw [getLast?_append_cons] at ha
      have hal₁ : l₁.getLast? ≠ some a := by
        intro hmem
        exact hdisj a (mem_of_getLast? hmem) (mem_of_getLast? ha)
      have hwhole : (l₁ ++ x :: b :: t₂).getLast? = some a := by
        rw [getLast?_append_cons, List.getLast?_cons_cons]
        exact ha
      rw [optAll_iff] at h₄
      have hold := h₄ a hwhole
      rw [beq_iff_eq] at hold ⊢
      rw [next_pres a hax hal₁, hold]
  · -- the links of the remaining nodes
    rw [linksOK_iff, List.chain'_append]
    refine ⟨?_, ?_, ?_⟩
    · refine chain'_adj_of_eq_on ?_ ?_ hch₁
      · intro u hu
        have hux : u ≠ x := fun hh => hxl₁ (hh ▸ List.dropLast_subset _ hu)
        exact next_pres u hux (fun hh =>
          getLast?_not_mem_dropLast hnd₁ hh hu)
      · intro u hu
        have hul : u ∈ l₁ := List.tail_subset _ hu
        have hux : u ≠ x := fun hh => hxl₁ (hh ▸ hul)
        exact prev_pres u hux (fun hh => hdisj u hul (mem_of_head? hh))
    · refine chain'_adj_of_eq_on ?_ ?_ hch₂'
      · intro u hu
        have hul : u ∈ l₂ := List.dropLast_subset _ hu
        have hux : u ≠ x := fun hh => hxl₂ (hh ▸ hul)
        exact next_pres u hux (fun hh => hdisj u (mem_of_getLast? hh) hul)
      · intro u hu
        have hul : u ∈ l₂ := List.tail_subset _ hu
        have hux : u ≠ x := fun hh => hxl₂ (hh ▸ hul)
        exact prev_pres u hux (fun hh => head?_not_mem_tail hnd₂ hh hu)
    · intro u hu v hv
      rw [Option.mem_def] at hu hv
      constructor
      · rw [hcp u hu, hv]
      · rw [hcn v hv, hu]

theorem detach_repFull {c : Chain} {l₁ l₂ : List Nat} {x : Nat}
    (h : repFull c (l₁ ++ x :: l₂)) : repFull (detach c x) (l₁ ++ l₂) := by
  obtain ⟨hrep, hclean⟩ := h
  obtain ⟨hcx, hother, hcp, hcn, _, _⟩ := detach_char hrep
  refine ⟨detach_repOK hrep, ?_⟩
  intro i hi
  rw [List.mem_append] at hi
  push_neg at hi
  by_cases hix : i = x
  · subst hix; exact hcx
  · rw [hother i hix
      (fun hh => hi.1 (mem_of_getLast? hh))
      (fun hh => hi.2 (mem_of_head? hh))]
    exact hclean i (by
      rw [List.mem_append, List.mem_cons]
      push_neg
      exact ⟨hi.1, hix, hi.2⟩)

/-! ## Characterization of `insert` -/

theorem resolveAbove_attached {c : Chain} {t : Nat}
    (ht : is_attached c t = true) : resolveAbove c (some t) = some t := by
  simp [resolveAbove, ht]

theorem resolveAbove_detached {c : Chain} {t : Nat}
    (ht : is_attached c t = false) : resolveAbove c (some t) = c.s_top := by
  simp [resolveAbove, ht]

theorem resolveAbove_s_top {c : Chain} {l : List Nat} (h : repOK c l) :
    resolveAbove c c.s_top = c.s_top := by
  cases hs : c.s_top with
  | none => rfl
  | some a =>
    have ha : a ∈ l := mem_of_head? (by rw [← h.1, hs])
    exact resolveAbove_attached (attached_of_mem h ha)

theorem insert_resolve_congr {c : Chain} {i : Nat} {a₀ a₁ : Option Nat}
    (h : resolveAbove c a₀ = resolveAbove c a₁) :
    insert c i a₀ = insert c i a₁ := by
  unfold insert
  rw [h]

theorem insert_above_char {c : Chain} {l₁ l₂ : List Nat} {t i : Nat}
    (h : repOK c (l₁ ++ t :: l₂)) (hi : i ∉ l₁ ++ t :: l₂) :
    (insert c i (some t)).mem i = ⟨some t, l₁.getLast?⟩ ∧
    (insert c i (some t)).mem t = { c.mem t with m_prev := some i } ∧
    (∀ p, l₁.getLast? = some p →
      (insert c i (some t)).mem p = { c.mem p with m_next := some i }) ∧
    (∀ j, j ≠ i → j ≠ t → l₁.getLast? ≠ some j →
      (insert c i (some t)).mem j = c.mem j) ∧
    (insert c i (some t)).s_top = (l₁ ++ i :: t :: l₂).head? ∧
    (insert c i (some t)).s_bottom = c.s_bottom := by
  have hatt := attached_of_mem h (List.mem_append_right l₁ (List.mem_cons_self t l₂))
  have hf := repOK_split_fields h
  have hit : i ≠ t := fun hh => hi (by
    rw [hh]; exact List.mem_append_right l₁ (List.mem_cons_self t l₂))
  have hti : t ≠ i := Ne.symm hit
  have hnd := h.2.2.2.2.2
  rw [List.nodup_append] at hnd
  have htl₁ : t ∉ l₁ := fun ht => hnd.2.2 ht (List.mem_cons_self t l₂)
  cases l₁ with
  | nil =>
    have e : insert c i (some t) =
        setPrev { setPrev (setNext c i (some t)) i none with s_top := some i }
          t (some i) := by
      unfold insert
      rw [resolveAbove_attached hatt]
      simp only [setNext_mem_ne _ _ hti, hf.2, List.getLast?_nil,
        setPrev_mem_self, setNext_mem_self]
    refine ⟨?_, ?_, ?_, ?_, ?_, ?_⟩
    · rw [e, setPrev_mem_ne _ _ hit]
      have : ({ setPrev (setNext c i (some t)) i none with s_top := some i}).mem i
          = (setPrev (setNext c i (some t)) i none).mem i := rfl
      rw [this, setPrev_mem_self, setNext_mem_self]
      rfl
    · rw [e, setPrev_mem_self]
      have : ({ setPrev (setNext c i (some t)) i none with s_top := some i}).mem t
          = (setPrev (setNext c i (some t)) i none).mem t := rfl
      rw [this, setPrev_mem_ne _ _ hti, setNext_mem_ne _ _ hti]
    · intro p hp; simp at hp
    · intro j hji hjt _
      rw [e, setPrev_mem_ne _ _ hjt]
      have : ({ setPrev (setNext c i (some t)) i none with s_top := some i}).mem j
          = (setPrev (setNext c i (some t)) i none).mem j := rfl
      rw [this, setPrev_mem_ne _ _ hji, setNext_mem_ne _ _ hji]
    · rw [e]; rfl
    · rw [e]; rfl
  | cons a t₁ =>
    obtain ⟨p, hp, hpmem⟩ := getLast?_cons_exists a t₁
    have hpi : p ≠ i := fun hh => hi (hh ▸ List.mem_append_left _ hpmem)
    have hip : i ≠ p := Ne.symm hpi
    have hpt : p ≠ t := fun hh => htl₁ (hh ▸ hpmem)
    have htp : t ≠ p := Ne.symm hpt
    have e : insert c i (some t) =
        setPrev (setNext (setPrev (setNext c i (some t)) i (some p)) p (some i))
          t (some i) := by
      unfold insert
      rw [resolveAbove_attached hatt]
      simp only [setNext_mem_ne _ _ hti, hf.2, hp,
        setPrev_mem_self, setNext_mem_self, setNext_mem_ne _ _ hip]
    refine ⟨?_, ?_, ?_, ?_, ?_, ?_⟩
    · rw [e, setPrev_mem_ne _ _ hit, setNext_mem_ne _ _ hip,
        setPrev_mem_self, setNext_mem_self, hp]
    · rw [e, setPrev_mem_self, setNext_mem_ne _ _ htp, setPrev_mem_ne _ _ hti,
        setNext_mem_ne _ _ hti]
    · intro p' hp'
      rw [hp, Option.some.injEq] at hp'
      subst hp'
      rw [e, setPrev_mem_ne _ _ hpt, setNext_mem_self, setPrev_mem_ne _ _ hpi,
        setNext_mem_ne _ _ hpi]
    · intro j hji hjt hjp
      have hjp' : j ≠ p := fun hh => hjp (by rw [hp, hh])
      rw [e, setPrev_mem_ne _ _ hjt, setNext_mem_ne _ _ hjp',
        setPrev_mem_ne _ _ hji, setNext_mem_ne _ _ hji]
    · rw [e]
      have hs : (setPrev (setNext (setPrev (setNext c i (some t)) i (some p))
          p (some i)) t (some i)).s_top = c.s_top := rfl
      rw [hs, h.1]; rfl
    · rw [e]; rfl

/-! ## Preservation of the invariant by `insert` -/

theorem insert_above_repOK {c : Chain} {l₁ l₂ : List Nat} {t i : Nat}
    (h : repOK c (l₁ ++ t :: l₂)) (hi : i ∉ l₁ ++ t :: l₂) :
    repOK (insert c i (some t)) (l₁ ++ i :: t :: l₂) := by
  obtain ⟨hmi, hmt, hmp, hmo, hstop, hsbot⟩ := insert_above_char h hi
  obtain ⟨h₁, h₂, h₃, h₄, h₅, h₆⟩ := h
  rw [List.nodup_append] at h₆
  have hnd₁ := h₆.1
  have hndtl := h₆.2.1
  have htl₂ : t ∉ l₂ := (List.nodup_cons.mp hndtl).1
  have hdisj : ∀ u, u ∈ l₁ → u ∈ t :: l₂ → False := fun u hu₁ hu₂ => h₆.2.2 hu₁ hu₂
  have hil₁ : i ∉ l₁ := fun hx => hi (List.mem_append_left _ hx)
  have hitl₂ : i ∉ t :: l₂ := fun hx => hi (List.mem_append_right _ hx)
  have hit : i ≠ t := fun hh => hitl₂ (by rw [hh]; exact List.mem_cons_self t l₂)
  have hti : t ≠ i := Ne.symm hit
  have next_pres : ∀ j, j ≠ i → l₁.getLast? ≠ some j →
      ((insert c i (some t)).mem j).m_next = (c.mem j).m_next := by
    intro j hj hjp
    by_cases hjt : j = t
    · subst hjt; rw [hmt]
    · rw [hmo j hj hjt hjp]
  have prev_pres : ∀ j, j ≠ i → j ≠ t →
      ((insert c i (some t)).mem j).m_prev = (c.mem j).m_prev := by
    intro j hj hjt
    by_cases hjp : l₁.getLast? = some j
    · rw [hmp j hjp]
    · rw [hmo j hj hjt hjp]
  rw [linksOK_iff, List.chain'_append] at h₅
  obtain ⟨hch₁, hch₂, hjunc⟩ := h₅
  refine ⟨hstop, ?_, ?_, ?_, ?_, ?_⟩
  · rw [hsbot, h₂, getLast?_append_cons, getLast?_append_cons,
      List.getLast?_cons_cons]
  · rw [optAll_iff]
    intro a ha
    cases l₁ with
    | nil =>
      simp only [List.nil_append, List.head?_cons, Option.some.injEq] at ha
      rw [beq_iff_eq, ← ha, hmi]
      rfl
    | cons a₀ t₁ =>
      simp only [List.cons_append, List.head?_cons, Option.some.injEq] at ha
      have ham : a ∈ a₀ :: t₁ := by rw [← ha]; exact List.mem_cons_self _ _
      have hai : a ≠ i := fun hh => hil₁ (hh ▸ ham)
      have hat : a ≠ t := fun hh => hdisj a ham (by rw [hh]; exact List.mem_cons_self t l₂)
      rw [optAll_iff] at h₃
      have hold := h₃ a (by rw [List.cons_append, List.head?_cons, ha])
      rw [beq_iff_eq] at hold ⊢
      rw [prev_pres a hai hat, hold]
  · rw [optAll_iff]
    intro a ha
    rw [getLast?_append_cons, List.getLast?_cons_cons] at ha
    rw [optAll_iff] at h₄
    have hold := h₄ a (by rw [getLast?_append_cons]; exact ha)
    have hamem : a ∈ t :: l₂ := mem_of_getLast? (by exact ha)
    have hai : a ≠ i := fun hh => hitl₂ (hh ▸ hamem)
    have hap : l₁.getLast? ≠ some a := fun hh =>
      hdisj a (mem_of_getLast? hh) hamem
    rw [beq_iff_eq] at hold ⊢
    rw [next_pres a hai hap, hold]
  · rw [linksOK_iff, List.chain'_append]
    refine ⟨?_, ?_, ?_⟩
    · refine chain'_adj_of_eq_on ?_ ?_ hch₁
      · intro u hu
        have hui : u ≠ i := fun hh => hil₁ (hh ▸ List.dropLast_subset _ hu)
        exact next_pres u hui (fun hh => getLast?_not_mem_dropLast hnd₁ hh hu)
      · intro u hu
        have hul : u ∈ l₁ := List.tail_subset _ hu
        have hui : u ≠ i := fun hh => hil₁ (hh ▸ hul)
        have hut : u ≠ t := fun hh => hdisj u hul (by
          rw [hh]; exact List.mem_cons_self t l₂)
        exact prev_pres u hui hut
    · rw [List.chain'_cons]
      refine ⟨⟨?_, ?_⟩, ?_⟩
      · rw [hmi]
      · rw [hmt]
      · refine chain'_adj_of_eq_on ?_ ?_ hch₂
        · intro u hu
          have hul : u ∈ t :: l₂ := List.dropLast_subset _ hu
          have hui : u ≠ i := fun hh => hitl₂ (hh ▸ hul)
          exact next_pres u hui (fun hh => hdisj u (mem_of_getLast? hh) hul)
        · intro u hu
          have hul : u ∈ l₂ := hu
          have hui : u ≠ i := fun hh => hitl₂ (hh ▸ List.mem_cons_of_mem _ hul)
          have hut : u ≠ t := fun hh => htl₂ (hh ▸ hul)
          exact prev_pres u hui hut
    · intro u hu v hv
      rw [Option.mem_def] at hu hv
      simp only [List.head?_cons, Option.some.injEq] at hv
      subst hv
      constructor
      · rw [hmp u hu]
      · rw [hmi, hu]
  · rw [List.nodup_append]
    refine ⟨hnd₁, List.nodup_cons.mpr ⟨hitl₂, hndtl⟩, ?_⟩
    intro u hu₁ hu₂
    rcases List.mem_cons.mp hu₂ with hh | hh
    · exact hil₁ (hh ▸ hu₁)
    · exact hdisj u hu₁ hh

theorem insert_above_repFull {c : Chain} {l₁ l₂ : List Nat} {t i : Nat}
    (h : repFull c (l₁ ++ t :: l₂)) (hi : i ∉ l₁ ++ t :: l₂) :
    repFull (insert c i (some t)) (l₁ ++ i :: t :: l₂) := by
  obtain ⟨hrep, hclean⟩ := h
  obtain ⟨hmi, hmt, hmp, hmo, _, _⟩ := insert_above_char hrep hi
  refine ⟨insert_above_repOK hrep hi, ?_⟩
  intro j hj
  rw [List.mem_append, List.mem_cons, List.mem_cons] at hj
  push_neg at hj
  obtain ⟨hj₁, hji, hjt, hj₂⟩ := hj
  rw [hmo j hji hjt (fun hh => hj₁ (mem_of_getLast? hh))]
  exact hclean j (by
    rw [List.mem_append, List.mem_cons]
    push_neg
    exact ⟨hj₁, hjt, hj₂⟩)

theorem repOK_setNode_out {c : Chain} {l : List Nat} {i : Nat} (v : Node)
    (h : repOK c l) (hi : i ∉ l) : repOK (setNode c i v) l :=
  repOK_congr (fun u hu => setNode_mem_ne _ _ (fun hh => hi (hh ▸ hu))) rfl rfl h

theorem insert_nil_eq {c : Chain} {i : Nat} (h : repOK c []) (a₀ : Option Nat)
    (ha : resolveAbove c a₀ = c.s_top) :
    insert c i a₀ =
      { setPrev (setNext c i none) i none with
          s_top := some i, s_bottom := some i } := by
  have htop : c.s_top = none := by rw [h.1]; rfl
  have hbot : c.s_bottom = none := by rw [h.2.1]; rfl
  unfold insert
  rw [ha, htop]
  simp only [setNext_s_bottom, hbot, setPrev_mem_self, setNext_mem_self]

theorem insert_top_repOK {c : Chain} {l : List Nat} {i : Nat}
    (h : repOK c l) (hi : i ∉ l) (a₀ : Option Nat)
    (ha : resolveAbove c a₀ = c.s_top) :
    repOK (insert c i a₀) (i :: l) ∧
    (∀ j, j ≠ i → l.head? ≠ some j → (insert c i a₀).mem j = c.mem j) := by
  cases l with
  | nil =>
    rw [insert_nil_eq h a₀ ha]
    constructor
    · refine ⟨rfl, rfl, ?_, ?_, ?_, ?_⟩
      · have hm : ({ setPrev (setNext c i none) i none with
            s_top := some i, s_bottom := some i }).mem i
            = (setPrev (setNext c i none) i none).mem i := rfl
        simp only [List.head?_cons, Option.all, hm, setPrev_mem_self]
        rfl
      · have hm : ({ setPrev (setNext c i none) i none with
            s_top := some i, s_bottom := some i }).mem i
            = (setPrev (setNext c i none) i none).mem i := rfl
        simp only [List.getLast?_singleton, Option.all, hm, setPrev_mem_self,
          setNext_mem_self]
        rfl
      · rfl
      · simp
    · intro j hj _
      have hm : ({ setPrev (setNext c i none) i none with
          s_top := some i, s_bottom := some i }).mem j
          = (setPrev (setNext c i none) i none).mem j := rfl
      rw [hm, setPrev_mem_ne _ _ hj, setNext_mem_ne _ _ hj]
  | cons t rest =>
    have hth : c.s_top = some t := by rw [h.1]; rfl
    have hatt : is_attached c t = true :=
      attached_of_mem h (List.mem_cons_self t rest)
    have hres : resolveAbove c a₀ = resolveAbove c (some t) := by
      rw [ha, hth, resolveAbove_attached hatt]
    rw [insert_resolve_congr hres]
    have h' : repOK c ([] ++ t :: rest) := h
    have hi' : i ∉ [] ++ t :: rest := hi
    constructor
    · exact insert_above_repOK h' hi'
    · intro j hj hjh
      obtain ⟨_, _, _, hmo, _, _⟩ := insert_above_char h' hi'
      exact hmo j hj (fun hh => hjh (by rw [hh]; rfl)) (by simp)

theorem insert_top_repFull {c : Chain} {l : List Nat} {i : Nat}
    (h : repFull c l) (hi : i ∉ l) (a₀ : Option Nat)
    (ha : resolveAbove c a₀ = c.s_top) :
    repFull (insert c i a₀) (i :: l) := by
  obtain ⟨hrep, hclean⟩ := h
  obtain ⟨hok, hpres⟩ := insert_top_repOK hrep hi a₀ ha
  refine ⟨hok, ?_⟩
  intro j hj
  rw [List.mem_cons] at hj
  push_neg at hj
  rw [hpres j hj.1 (fun hh => hj.2 (mem_of_head? hh))]
  exact hclean j hj.2

/-! ## Detachment tests against the invariant -/

theorem not_attached_of_clean_out {c : Chain} {l : List Nat} (h : repOK c l)
    {x : Nat} (hx : c.mem x = Node.clean) (hxl : x ∉ l) :
    is_attached c x = false := by
  have ht : c.s_top ≠ some x := fun hh =>
    hxl (mem_of_head? (by rw [← h.1]; exact hh))
  have hb : c.s_bottom ≠ some x := fun hh =>
    hxl (mem_of_getLast? (by rw [← h.2.1]; exact hh))
  rw [is_attached, hx]
  simp only [Node.clean, Option.isSome_none, Bool.false_or,
    Bool.or_eq_false_iff, beq_eq_false_iff_ne]
  exact ⟨ht, hb⟩

theorem not_attached_of_not_mem {c : Chain} {l : List Nat} (h : repFull c l)
    {x : Nat} (hx : x ∉ l) : is_attached c x = false :=
  not_attached_of_clean_out h.1 (h.2 x hx) hx

theorem attached_iff_mem {c : Chain} {l : List Nat} (h : repFull c l) (x : Nat) :
    is_attached c x = true ↔ x ∈ l := by
  constructor
  · intro hx
    by_contra hmem
    rw [not_attached_of_not_mem h hmem] at hx
    cases hx
  · exact attached_of_mem h.1

/-! ## Walking the chain with `next()` / `prev()` -/

theorem walkNext_of_chain {c : Chain} : ∀ {l : List Nat},
    List.Chain' (adj c) l →
    (l.getLast?.all fun a => (c.mem a).m_next == none) = true →
    walkNext c l.length l.head? = l
  | [], _, _ => rfl
  | [a], _, hlast => by
    rw [optAll_iff] at hlast
    have hnone := hlast a rfl
    rw [beq_iff_eq] at hnone
    simp [walkNext, hnone]
  | a :: b :: l, hch, hlast => by
    rw [List.chain'_cons] at hch
    have hnext : (c.mem a).m_next = some b := hch.1.1
    have ih := walkNext_of_chain (l := b :: l) hch.2 (by
      rw [optAll_iff] at hlast ⊢
      intro u hu
      exact hlast u (by rw [List.getLast?_cons_cons]; exact hu))
    show a :: walkNext c (b :: l).length (c.mem a).m_next = a :: b :: l
    rw [hnext]
    rw [show ((b :: l).head? = some b) from rfl] at ih
    rw [ih]

theorem walkPrev_of_chain {c : Chain} : ∀ {l : List Nat},
    List.Chain' (fun a b => adj c b a) l →
    (l.getLast?.all fun a => (c.mem a).m_prev == none) = true →
    walkPrev c l.length l.head? = l
  | [], _, _ => rfl
  | [a], _, hlast => by
    rw [optAll_iff] at hlast
    have hnone := hlast a rfl
    rw [beq_iff_eq] at hnone
    simp [walkPrev, hnone]
  | a :: b :: l, hch, hlast => by
    rw [List.chain'_cons] at hch
    have hprev : (c.mem a).m_prev = some b := hch.1.2
    have ih := walkPrev_of_chain (l := b :: l) hch.2 (by
      rw [optAll_iff] at hlast ⊢
      intro u hu
      exact hlast u (by rw [List.getLast?_cons_cons]; exact hu))
    show a :: walkPrev c (b :: l).length (c.mem a).m_prev = a :: b :: l
    rw [hprev]
    rw [show ((b :: l).head? = some b) from rfl] at ih
    rw [ih]

theorem repOK_walkNext {c : Chain} {l : List Nat} (h : repOK c l) :
    walkNext c l.length c.s_top = l := by
  rw [h.1]
  exact walkNext_of_chain (linksOK_iff.mp h.2.2.2.2.1) h.2.2.2.1

theorem repOK_walkPrev {c : Chain} {l : List Nat} (h : repOK c l) :
    walkPrev c l.length c.s_bottom = l.reverse := by
  rw [h.2.1, ← List.head?_reverse, ← List.length_reverse]
  refine walkPrev_of_chain ?_ ?_
  · rw [List.chain'_reverse]
    exact linksOK_iff.mp h.2.2.2.2.1
  · rw [List.getLast?_reverse]
    exact h.2.2.1

/-! ## The public constructors preserve the invariant -/

theorem ctor_default_repFull {c : Chain} {l : List Nat} {i : Nat}
    (h : repFull c l) (hi : is_attached c i = false) :
    repFull (ctor_default c i) (i :: l) := by
  have hil : i ∉ l := not_mem_of_not_attached h.1 hi
  have h' : repFull (setNode c i Node.clean) l := by
    refine ⟨repOK_setNode_out _ h.1 hil, ?_⟩
    intro j hj
    by_cases hji : j = i
    · subst hji; simp
    · rw [setNode_mem_ne _ _ hji]; exact h.2 j hj
  unfold ctor_default
  exact insert_top_repFull h' hil _ (resolveAbove_s_top h'.1)

theorem setNode_clean_repFull {c : Chain} {l : List Nat} {i : Nat}
    (h : repFull c l) (hil : i ∉ l) :
    repFull (setNode c i Node.clean) l := by
  refine ⟨repOK_setNode_out _ h.1 hil, ?_⟩
  intro j hj
  by_cases hji : j = i
  · subst hji; simp
  · rw [setNode_mem_ne _ _ hji]; exact h.2 j hj

theorem ctor_copy_above_repFull {c : Chain} {l₁ l₂ : List Nat} {t i : Nat}
    (h : repFull c (l₁ ++ t :: l₂)) (hi : is_attached c i = false) :
    repFull (ctor_copy c i t) (l₁ ++ i :: t :: l₂) := by
  have hil := not_mem_of_not_attached h.1 hi
  exact insert_above_repFull (setNode_clean_repFull h hil) hil

theorem ctor_copy_top_repFull {c : Chain} {l : List Nat} {t i : Nat}
    (h : repFull c l) (hi : is_attached c i = false) (ht : t ∉ l) :
    repFull (ctor_copy c i t) (i :: l) := by
  have hil := not_mem_of_not_attached h.1 hi
  have h' := setNode_clean_repFull h hil
  have hdet : is_attached (setNode c i Node.clean) t = false :=
    not_attached_of_not_mem h' ht
  exact insert_top_repFull h' hil _ (resolveAbove_detached hdet)

theorem reaches_repFull {c : Chain} (h : Reaches c) : ∃ l, repFull c l := by
  induction h with
  | init =>
    exact ⟨[], ⟨rfl, rfl, rfl, rfl, rfl, List.nodup_nil⟩, fun _ _ => rfl⟩
  | attachDefault c i _ hna ih =>
    obtain ⟨l, hl⟩ := ih
    exact ⟨i :: l, ctor_default_repFull hl hna⟩
  | attachAbove c i t _ hna ih =>
    obtain ⟨l, hl⟩ := ih
    by_cases htl : t ∈ l
    · obtain ⟨l₁, l₂, rfl⟩ := List.append_of_mem htl
      exact ⟨l₁ ++ i :: t :: l₂, ctor_copy_above_repFull hl hna⟩
    · exact ⟨i :: l, ctor_copy_top_repFull hl hna htl⟩
  | doDetach c i _ ih =>
    obtain ⟨l, hl⟩ := ih
    by_cases him : i ∈ l
    · obtain ⟨l₁, l₂, rfl⟩ := List.append_of_mem him
      exact ⟨l₁ ++ l₂, detach_repFull hl⟩
    · rw [detach_not_attached (not_attached_of_not_mem hl him)]
      exact ⟨l, hl⟩

/-! ## Operations nested under a haven -/

theorem nested_inv {avoid : List Nat} {c₀ c₂ : Chain} (h : Nested avoid c₀ c₂)
    (h₀top : c₀.s_top = none) (h₀bot : c₀.s_bottom = none)
    (h₀clean : ∀ i, i ∉ avoid → c₀.mem i = Node.clean) :
    NestedInv avoid c₀ c₂ := by
  induction h with
  | refl =>
    exact ⟨[], ⟨h₀top, h₀bot, rfl, rfl, rfl, List.nodup_nil⟩,
      by simp, fun i _ => rfl, fun i _ hi => h₀clean i hi⟩
  | attachDefault c' i hn hna hiav ih =>
    obtain ⟨l₂, hrep, hdisj, hav, hclean⟩ := ih
    have hil := not_mem_of_not_attached hrep hna
    have h' : repOK (setNode c' i Node.clean) l₂ := repOK_setNode_out _ hrep hil
    obtain ⟨hok, hpres⟩ := insert_top_repOK h' hil _ (resolveAbove_s_top h')
    have hpres' : ∀ j, j ≠ i → l₂.head? ≠ some j →
        (ctor_default c' i).mem j = (setNode c' i Node.clean).mem j := hpres
    refine ⟨i :: l₂, hok, ?_, ?_, ?_⟩
    · intro u hu
      rcases List.mem_cons.mp hu with rfl | hu'
      · exact hiav
      · exact hdisj u hu'
    · intro j hj
      have hji : j ≠ i := fun hh => hiav (hh ▸ hj)
      have hjh : l₂.head? ≠ some j := fun hh => hdisj j (mem_of_head? hh) hj
      rw [hpres' j hji hjh, setNode_mem_ne _ _ hji]
      exact hav j hj
    · intro j hj hjav
      rw [List.mem_cons] at hj
      push_neg at hj
      have hjh : l₂.head? ≠ some j := fun hh => hj.2 (mem_of_head? hh)
      rw [hpres' j hj.1 hjh, setNode_mem_ne _ _ hj.1]
      exact hclean j hj.2 hjav
  | attachAbove c' i t hn hna hiav htav ih =>
    obtain ⟨l₂, hrep, hdisj, hav, hclean⟩ := ih
    have hil := not_mem_of_not_attached hrep hna
    by_cases htl : t ∈ l₂
    · obtain ⟨la, lb, rfl⟩ := List.append_of_mem htl
      have h' : repOK (setNode c' i Node.clean) (la ++ t :: lb) :=
        repOK_setNode_out _ hrep hil
      obtain ⟨hmi, hmt, hmp, hmo, _, _⟩ := insert_above_char h' hil
      have hmo' : ∀ j, j ≠ i → j ≠ t → la.getLast? ≠ some j →
          (ctor_copy c' i t).mem j = (setNode c' i Node.clean).mem j := hmo
      refine ⟨la ++ i :: t :: lb, insert_above_repOK h' hil, ?_, ?_, ?_⟩
      · intro u hu
        rw [List.mem_append, List.mem_cons] at hu
        rcases hu with hu' | rfl | hu'
        · exact hdisj u (List.mem_append_left _ hu')
        · exact hiav
        · exact hdisj u (List.mem_append_right _ hu')
      · intro j hj
        have hji : j ≠ i := fun hh => hiav (hh ▸ hj)
        have hjt : j ≠ t := fun hh => htav (hh ▸ hj)
        have hjp : la.getLast? ≠ some j := fun hh =>
          hdisj j (List.mem_append_left _ (mem_of_getLast? hh)) hj
        rw [hmo' j hji hjt hjp, setNode_mem_ne _ _ hji]
        exact hav j hj
      · intro j hj hjav
        rw [List.mem_append, List.mem_cons, List.mem_cons] at hj
        push_neg at hj
        obtain ⟨hja, hji, hjt, hjb⟩ := hj
        have hjp : la.getLast? ≠ some j := fun hh => hja (mem_of_getLast? hh)
        rw [hmo' j hji hjt hjp, setNode_mem_ne _ _ hji]
        exact hclean j (by
          rw [List.mem_append, List.mem_cons]
          push_neg
          exact ⟨hja, hjt, hjb⟩) hjav
    · have h' : repOK (setNode c' i Node.clean) l₂ := repOK_setNode_out _ hrep hil
      have htc : (setNode c' i Node.clean).mem t = Node.clean := by
        by_cases hti : t = i
        · subst hti; simp
        · rw [setNode_mem_ne _ _ hti]
          exact hclean t htl htav
      have hdet : is_attached (setNode c' i Node.clean) t = false :=
        not_attached_of_clean_out h' htc htl
      obtain ⟨hok, hpres⟩ := insert_top_repOK h' hil _ (resolveAbove_detached hdet)
      have hpres' : ∀ j, j ≠ i → l₂.head? ≠ some j →
          (ctor_copy c' i t).mem j = (setNode c' i Node.clean).mem j := hpres
      refine ⟨i :: l₂, hok, ?_, ?_, ?_⟩
      · intro u hu
        rcases List.mem_cons.mp hu with rfl | hu'
        · exact hiav
        · exact hdisj u hu'
      · intro j hj
        have hji : j ≠ i := fun hh => hiav (hh ▸ hj)
        have hjh : l₂.head? ≠ some j := fun hh => hdisj j (mem_of_head? hh) hj
        rw [hpres' j hji hjh, setNode_mem_ne _ _ hji]
        exact hav j hj
      · intro j hj hjav
        rw [List.mem_cons] at hj
        push_neg at hj
        have hjh : l₂.head? ≠ some j := fun hh => hj.2 (mem_of_head? hh)
        rw [hpres' j hj.1 hjh, setNode_mem_ne _ _ hj.1]
        exact hclean j hj.2 hjav
  | doDetach c' i hn hiav ih =>
    obtain ⟨l₂, hrep, hdisj, hav, hclean⟩ := ih
    by_cases him : i ∈ l₂
    · obtain ⟨la, lb, rfl⟩ := List.append_of_mem him
      obtain ⟨hdx, hdo, hdp, hdn, _, _⟩ := detach_char hrep
      refine ⟨la ++ lb, detach_repOK hrep, ?_, ?_, ?_⟩
      · intro u hu
        rw [List.mem_append] at hu
        rcases hu with hu' | hu'
        · exact hdisj u (List.mem_append_left _ hu')
        · exact hdisj u (List.mem_append_right _ (List.mem_cons_of_mem _ hu'))
      · intro j hj
        have hji : j ≠ i := fun hh => hiav (hh ▸ hj)
        have hjp : la.getLast? ≠ some j := fun hh =>
          hdisj j (List.mem_append_left _ (mem_of_getLast? hh)) hj
        have hjn : lb.head? ≠ some j := fun hh =>
          hdisj j (List.mem_append_right _ (List.mem_cons_of_mem _ (mem_of_head? hh))) hj
        rw [hdo j hji hjp hjn]
        exact hav j hj
      · intro j hj hjav
        rw [List.mem_append] at hj
        push_neg at hj
        by_cases hji : j = i
        · subst hji; exact hdx
        · have hjp : la.getLast? ≠ some j := fun hh => hj.1 (mem_of_getLast? hh)
          have hjn : lb.head? ≠ some j := fun hh => hj.2 (mem_of_head? hh)
          rw [hdo j hji hjp hjn]
          exact hclean j (by
            rw [List.mem_append, List.mem_cons]
            push_neg
            exact ⟨hj.1, hji, hj.2⟩) hjav
    · have hia : is_attached c' i = false := by
        by_cases hjav : i ∈ avoid
        · exact absurd hjav hiav
        · exact not_attached_of_clean_out hrep (hclean i him hjav) him
      rw [detach_not_attached hia]
      exact ⟨l₂, hrep, hdisj, hav, hclean⟩

/-! ## Concrete instances used by the witnesses -/

theorem cBase_repOK : repOK cBase [1, 2] := by decide

theorem cBase_repFull : repFull cBase [1, 2] := by
  refine ⟨cBase_repOK, ?_⟩
  intro i hi
  rw [List.mem_cons, List.mem_cons] at hi
  push_neg at hi
  simp [cBase, hi.1, hi.2.1]

/-! ## The claims -/

/-- C9: detach is idempotent — detaching an already-detached node (both
link fields null and not recorded as top or bottom, i.e. `is_attached`
is false) is a no-op: the whole chain state, the anchors and every
node's record included, is unchanged. -/
theorem detach_already_detached_noop (c : Chain) (i : Nat)
    (h : is_attached c i = false) : detach c i = c :=
  detach_not_attached h

/-- Witness for C9: node 7 is detached in the two-node chain and
detaching it leaves the state unchanged. -/
theorem detach_already_detached_noop_witness :
    is_attached cBase 7 = false ∧ detach cBase 7 = cBase :=
  ⟨by decide, detach_already_detached_noop cBase 7 (by decide)⟩

/-- C8: copy assignment `a = b` changes no link of any node and neither
anchor (the whole link structure is untouched), while `a`'s payload
becomes a copy of `b`'s payload and all other payloads are unchanged. -/
theorem copy_assign_preserves_links (hc : HChain) (a b : Nat) :
    (copy_assign hc a b).chain = hc.chain ∧
    next (copy_assign hc a b).chain a = next hc.chain a ∧
    prev (copy_assign hc a b).chain a = prev hc.chain a ∧
    next (copy_assign hc a b).chain b = next hc.chain b ∧
    prev (copy_assign hc a b).chain b = prev hc.chain b ∧
    top (copy_assign hc a b).chain = top hc.chain ∧
    bottom (copy_assign hc a b).chain = bottom hc.chain ∧
    (copy_assign hc a b).values a = hc.values b ∧
    (∀ j, j ≠ a → (copy_assign hc a b).values j = hc.values j) := by
  refine ⟨rfl, rfl, rfl, rfl, rfl, rfl, rfl, by simp [copy_assign], ?_⟩
  intro j hj
  simp [copy_assign, hj]

/-- C4: on a chain with zero live nodes, `top()`, `bottom()` and `get()`
all return the empty result, and the traversal accessors past either end
(`next()` of the bottom node, `prev()` of the top node) return the empty
result as well; all of these are total functions, never undefined. -/
theorem empty_chain_lookups (c : Chain) (l : List Nat) (vals : Nat → Int)
    (h : repOK c l) :
    (l = [] → top c = none ∧ bottom c = none ∧ get ⟨c, vals⟩ = none) ∧
    (∀ b, bottom c = some b → next c b = none) ∧
    (∀ t, top c = some t → prev c t = none) := by
  obtain ⟨h₁, h₂, h₃, h₄, _, _⟩ := h
  refine ⟨?_, ?_, ?_⟩
  · rintro rfl
    have ht : c.s_top = none := h₁
    have hb : c.s_bottom = none := h₂
    exact ⟨ht, hb, by simp [get, ht]⟩
  · intro b hb
    rw [optAll_iff] at h₄
    have := h₄ b (by rw [← h₂]; exact hb)
    rw [beq_iff_eq] at this
    exact this
  · intro t ht
    rw [optAll_iff] at h₃
    have := h₃ t (by rw [← h₁]; exact ht)
    rw [beq_iff_eq] at this
    exact this

/-- Witness for C4 on the never-used chain. -/
theorem empty_chain_lookups_witness :
    repOK emptyChain [] ∧
    ((([] : List Nat) = [] → top emptyChain = none ∧ bottom emptyChain = none ∧
        get ⟨emptyChain, fun _ => (0 : Int)⟩ = none) ∧
      (∀ b, bottom emptyChain = some b → next emptyChain b = none) ∧
      (∀ t, top emptyChain = some t → prev emptyChain t = none)) :=
  ⟨by decide, empty_chain_lookups emptyChain [] (fun _ => 0) (by decide)⟩

/-- C7: detaching a node that is not currently at the top (out-of-order
destruction) patches both neighbors' links and the anchors, and the
remaining nodes keep exactly their relative order. -/
theorem detach_nontop_preserves_order (c : Chain) (l₁ l₂ : List Nat) (x : Nat)
    (h : repOK c (l₁ ++ x :: l₂)) (_hx : l₁ ≠ []) :
    repOK (detach c x) (l₁ ++ l₂) ∧
    (∀ p, l₁.getLast? = some p → ((detach c x).mem p).m_next = l₂.head?) ∧
    (∀ n, l₂.head? = some n → ((detach c x).mem n).m_prev = l₁.getLast?) ∧
    (detach c x).s_top = (l₁ ++ l₂).head? ∧
    (detach c x).s_bottom = (l₁ ++ l₂).getLast? := by
  obtain ⟨hdx, hdo, hdp, hdn, hds, hdb⟩ := detach_char h
  refine ⟨detach_repOK h, ?_, ?_, hds, hdb⟩
  · intro p hp
    rw [hdp p hp]
  · intro n hn
    rw [hdn n hn]

/-- Witness for C7: detaching the bottom node of the two-node chain. -/
theorem detach_nontop_preserves_order_witness :
    repOK cBase ([1] ++ 2 :: []) ∧ [1] ≠ ([] : List Nat) ∧
    (repOK (detach cBase 2) ([1] ++ []) ∧
      (∀ p, [1].getLast? = some p → ((detach cBase 2).mem p).m_next = ([] : List Nat).head?) ∧
      (∀ n, ([] : List Nat).head? = some n → ((detach cBase 2).mem n).m_prev = [1].getLast?) ∧
      (detach cBase 2).s_top = ([1] ++ ([] : List Nat)).head? ∧
      (detach cBase 2).s_bottom = ([1] ++ ([] : List Nat)).getLast?) :=
  ⟨by decide, by decide,
    detach_nontop_preserves_order cBase [1] [] 2 (by decide) (by decide)⟩

/-- C10: self-move-assignment detaches the node — the move-assignment
operator runs `other.detach()` on its argument, so `x = std::move(x)`
removes `x` from the chain: afterward `x`'s links are null, `x` is
neither recorded top nor bottom, the remaining nodes keep their relative
order, and the live node count drops by one. -/
theorem self_move_assign_detaches (c : Chain) (l₁ l₂ : List Nat) (x : Nat)
    (h : repOK c (l₁ ++ x :: l₂)) :
    move_assign c x = detach c x ∧
    repOK (move_assign c x) (l₁ ++ l₂) ∧
    ((move_assign c x).mem x).m_next = none ∧
    ((move_assign c x).mem x).m_prev = none ∧
    (move_assign c x).s_top ≠ some x ∧
    (move_assign c x).s_bottom ≠ some x ∧
    (l₁ ++ l₂).length + 1 = (l₁ ++ x :: l₂).length := by
  obtain ⟨hdx, hdo, hdp, hdn, hds, hdb⟩ := detach_char h
  have hnd := h.2.2.2.2.2
  rw [List.nodup_append] at hnd
  have hxl₁ : x ∉ l₁ := fun hx => hnd.2.2 hx (List.mem_cons_self x l₂)
  have hxl₂ : x ∉ l₂ := (List.nodup_cons.mp hnd.2.1).1
  have hxout : x ∉ l₁ ++ l₂ := by
    rw [List.mem_append]
    push_neg
    exact ⟨hxl₁, hxl₂⟩
  refine ⟨rfl, detach_repOK h, ?_, ?_, ?_, ?_,
    by simp only [List.length_append, List.length_cons]; omega⟩
  · show ((detach c x).mem x).m_next = none
    rw [hdx]
    rfl
  · show ((detach c x).mem x).m_prev = none
    rw [hdx]
    rfl
  · show (detach c x).s_top ≠ some x
    rw [hds]
    intro hh
    exact hxout (mem_of_head? hh)
  · show (detach c x).s_bottom ≠ some x
    rw [hdb]
    intro hh
    exact hxout (mem_of_getLast? hh)

/-- Witness for C10 at the top node of the two-node chain. -/
theorem self_move_assign_detaches_witness :
    repOK cBase ([] ++ 1 :: [2]) ∧
    (move_assign cBase 1 = detach cBase 1 ∧
      repOK (move_assign cBase 1) ([] ++ [2]) ∧
      ((move_assign cBase 1).mem 1).m_next = none ∧
      ((move_assign cBase 1).mem 1).m_prev = none ∧
      (move_assign cBase 1).s_top ≠ some 1 ∧
      (move_assign cBase 1).s_bottom ≠ some 1 ∧
      (([] : List Nat) ++ [2]).length + 1 = (([] : List Nat) ++ 1 :: [2]).length) :=
  ⟨by decide, self_move_assign_detaches cBase [] [2] 1 (by decide)⟩

/-- C5: move-constructing node `i` from an attached source runs
`insert(&other); other.detach();`, leaving the source fully detached and
the destination in the source's former position with the source's former
neighbors, and preserving the chain length. -/
theorem move_ctor_replaces_source (c : Chain) (l₁ l₂ : List Nat) (i src : Nat)
    (h : repOK c (l₁ ++ src :: l₂)) (hi : is_attached c i = false) :
    repOK (ctor_move c i src) (l₁ ++ i :: l₂) ∧
    ((ctor_move c i src).mem i).m_next = (c.mem src).m_next ∧
    ((ctor_move c i src).mem i).m_prev = (c.mem src).m_prev ∧
    (ctor_move c i src).mem src = Node.clean ∧
    is_attached (ctor_move c i src) src = false ∧
    (l₁ ++ i :: l₂).length = (l₁ ++ src :: l₂).length := by
  have hil := not_mem_of_not_attached h hi
  have hsrc := repOK_split_fields h
  have h' : repOK (setNode c i Node.clean) (l₁ ++ src :: l₂) :=
    repOK_setNode_out _ h hil
  obtain ⟨hmi, _, _, _, _, _⟩ := insert_above_char h' hil
  have hmi' : (ctor_copy c i src).mem i = ⟨some src, l₁.getLast?⟩ := hmi
  have h₁ : repOK (ctor_copy c i src) (l₁ ++ i :: src :: l₂) :=
    insert_above_repOK h' hil
  have hassoc : l₁ ++ i :: src :: l₂ = (l₁ ++ [i]) ++ src :: l₂ := by simp
  rw [hassoc] at h₁
  obtain ⟨hdx, _, hdp, _, hds, hdb⟩ := detach_char h₁
  have hrep₂ : repOK (detach (ctor_copy c i src) src) ((l₁ ++ [i]) ++ l₂) :=
    detach_repOK h₁
  have hassoc₂ : (l₁ ++ [i]) ++ l₂ = l₁ ++ i :: l₂ := by simp
  rw [hassoc₂] at hrep₂
  have hgl : (l₁ ++ [i]).getLast? = some i := by
    rw [getLast?_append_cons]
    rfl
  have hmemi := hdp i hgl
  have hmemi' : (ctor_move c i src).mem i =
      { (ctor_copy c i src).mem i with m_next := l₂.head? } := hmemi
  have hnd := h.2.2.2.2.2
  rw [List.nodup_append] at hnd
  have hsl₁ : src ∉ l₁ := fun hx => hnd.2.2 hx (List.mem_cons_self src l₂)
  have hsl₂ : src ∉ l₂ := (List.nodup_cons.mp hnd.2.1).1
  have hsi : src ≠ i := fun hh =>
    hil (by rw [← hh]; exact List.mem_append_right _ (List.mem_cons_self src l₂))
  have hsout : src ∉ l₁ ++ i :: l₂ := by
    rw [List.mem_append, List.mem_cons]
    push_neg
    exact ⟨hsl₁, hsi, hsl₂⟩
  refine ⟨hrep₂, ?_, ?_, hdx, ?_, ?_⟩
  · rw [hmemi', hmi', hsrc.1]
  · rw [hmemi', hmi', hsrc.2]
  · exact not_attached_of_clean_out hrep₂ hdx hsout
  · simp

/-- Witness for C5: move-constructing node 5 from the top node of the
two-node chain. -/
theorem move_ctor_replaces_source_witness :
    repOK cBase ([] ++ 1 :: [2]) ∧ is_attached cBase 5 = false ∧
    (repOK (ctor_move cBase 5 1) ([] ++ 5 :: [2]) ∧
      ((ctor_move cBase 5 1).mem 5).m_next = (cBase.mem 1).m_next ∧
      ((ctor_move cBase 5 1).mem 5).m_prev = (cBase.mem 1).m_prev ∧
      (ctor_move cBase 5 1).mem 1 = Node.clean ∧
      is_attached (ctor_move cBase 5 1) 1 = false ∧
      (([] : List Nat) ++ 5 :: [2]).length = (([] : List Nat) ++ 1 :: [2]).length) :=
  ⟨by decide, by decide, move_ctor_replaces_source cBase [] [2] 5 1 (by decide) (by decide)⟩

/-- C6 (amended): copy-constructing node `i` from an attached source
inserts `i` directly above the source; the source is not removed and its
position in the chain order and its next link are unchanged — but the
source's prev link is necessarily rewritten to point at the new node. -/
theorem copy_ctor_inserts_above (c : Chain) (l₁ l₂ : List Nat) (i src : Nat)
    (h : repOK c (l₁ ++ src :: l₂)) (hi : is_attached c i = false) :
    repOK (ctor_copy c i src) (l₁ ++ i :: src :: l₂) ∧
    ((ctor_copy c i src).mem i).m_next = some src ∧
    ((ctor_copy c i src).mem src).m_next = (c.mem src).m_next ∧
    ((ctor_copy c i src).mem src).m_prev = some i := by
  have hil := not_mem_of_not_attached h hi
  have hsi : src ≠ i := fun hh =>
    hil (by rw [← hh]; exact List.mem_append_right _ (List.mem_cons_self src l₂))
  have h' : repOK (setNode c i Node.clean) (l₁ ++ src :: l₂) :=
    repOK_setNode_out _ h hil
  obtain ⟨hmi, hmt, _, _, _, _⟩ := insert_above_char h' hil
  have hmi' : (ctor_copy c i src).mem i = ⟨some src, l₁.getLast?⟩ := hmi
  have hmt' : (ctor_copy c i src).mem src =
      { (setNode c i Node.clean).mem src with m_prev := some i } := hmt
  have hsrcmem : (setNode c i Node.clean).mem src = c.mem src :=
    setNode_mem_ne _ _ hsi
  refine ⟨insert_above_repOK h' hil, ?_, ?_, ?_⟩
  · rw [hmi']
  · rw [hmt', hsrcmem]
  · rw [hmt']

/-- Counterexample for C6 as stated: on the one-node chain, the source's
prev link is null before the copy and points at the new node afterwards,
so the copy does alter the source's links. -/
theorem copy_ctor_alters_source_prev :
    is_attached cOne 1 = true ∧
    (cOne.mem 1).m_prev = none ∧
    ((ctor_copy cOne 2 1).mem 1).m_prev = some 2 ∧
    ((ctor_copy cOne 2 1).mem 1).m_prev ≠ (cOne.mem 1).m_prev := by decide

/-- Witness for C6's amended theorem: copy-constructing node 5 from the
bottom node of the two-node chain. -/
theorem copy_ctor_inserts_above_witness :
    repOK cBase ([1] ++ 2 :: []) ∧ is_attached cBase 5 = false ∧
    (repOK (ctor_copy cBase 5 2) ([1] ++ 5 :: 2 :: []) ∧
      ((ctor_copy cBase 5 2).mem 5).m_next = some 2 ∧
      ((ctor_copy cBase 5 2).mem 2).m_next = (cBase.mem 2).m_next ∧
      ((ctor_copy cBase 5 2).mem 2).m_prev = some 5) :=
  ⟨by decide, by decide, copy_ctor_inserts_above cBase [1] [] 5 2 (by decide) (by decide)⟩

/-- C2 (amended): attaching a fresh node with an attached target splices
it in directly above the target (the target becomes the new node's
`next`, toward the bottom); if no target is given — the constructor
passes the recorded top — or the target is detached, the node is
inserted at the recorded top and becomes the new top; in every such case
the structural invariants of the whole chain hold afterward. -/
theorem attach_inserts_above_target (c : Chain) (l₁ l₂ : List Nat) (t i : Nat)
    (h : repOK c (l₁ ++ t :: l₂)) (hi : i ∉ l₁ ++ t :: l₂) :
    (repOK (insert c i (some t)) (l₁ ++ i :: t :: l₂) ∧
      ((insert c i (some t)).mem i).m_next = some t) ∧
    (∀ t', is_attached c t' = false →
      repOK (insert c i (some t')) (i :: (l₁ ++ t :: l₂)) ∧
      (insert c i (some t')).s_top = some i) ∧
    (repOK (insert c i c.s_top) (i :: (l₁ ++ t :: l₂)) ∧
      (insert c i c.s_top).s_top = some i) := by
  refine ⟨⟨insert_above_repOK h hi, ?_⟩, ?_, ?_⟩
  · rw [(insert_above_char h hi).1]
  · intro t' ht'
    obtain ⟨hok, _⟩ := insert_top_repOK h hi _ (resolveAbove_detached ht')
    exact ⟨hok, hok.1⟩
  · obtain ⟨hok, _⟩ := insert_top_repOK h hi _ (resolveAbove_s_top h)
    exact ⟨hok, hok.1⟩

/-- Counterexample for C2 as stated: inserting node 3 with attached
target 1 on the two-node chain puts 3 directly ABOVE 1 (3 becomes the
new top and its next is 1; 1's next is still 2), not directly below it;
and a literal null target on a non-empty chain appends at the bottom
rather than becoming the new top. -/
theorem attach_below_target_counterexample :
    is_attached cBase 1 = true ∧
    ((insert cBase 3 (some 1)).mem 1).m_next ≠ some 3 ∧
    ((insert cBase 3 (some 1)).mem 1).m_next = some 2 ∧
    ((insert cBase 3 (some 1)).mem 3).m_next = some 1 ∧
    (insert cBase 3 (some 1)).s_top = some 3 ∧
    (insert cBase 3 none).s_top ≠ some 3 ∧
    (insert cBase 3 none).s_bottom = some 3 := by decide

/-- Witness for C2's amended theorem on the two-node chain. -/
theorem attach_inserts_above_target_witness :
    repOK cBase ([] ++ 1 :: [2]) ∧ (3 : Nat) ∉ [] ++ 1 :: [2] ∧
    ((repOK (insert cBase 3 (some 1)) ([] ++ 3 :: 1 :: [2]) ∧
        ((insert cBase 3 (some 1)).mem 3).m_next = some 1) ∧
      (∀ t', is_attached cBase t' = false →
        repOK (insert cBase 3 (some t')) (3 :: ([] ++ 1 :: [2])) ∧
        (insert cBase 3 (some t')).s_top = some 3) ∧
      (repOK (insert cBase 3 cBase.s_top) (3 :: ([] ++ 1 :: [2])) ∧
        (insert cBase 3 cBase.s_top).s_top = some 3)) :=
  ⟨by decide, by decide,
    attach_inserts_above_target cBase [] [2] 1 3 (by decide) (by decide)⟩

/-- C1: after any sequence of attach/detach operations performed through
the public constructors and destructor on one thread's chain of one
(payload type, tag), `top()` is null iff `bottom()` is null; and there
is a list `l` of exactly the attached nodes such that the top node (if
any) has a null `prev`, the bottom node a null `next`, walking from
`top()` via `next()` visits exactly `l` — finitely many steps, one per
attached node, ending at `bottom()` — and walking from `bottom()` via
`prev()` visits the same nodes in reverse, ending at `top()`. -/
theorem chain_walk_invariants (c : Chain) (h : Reaches c) :
    (top c = none ↔ bottom c = none) ∧
    ∃ l : List Nat,
      repFull c l ∧
      (∀ i, is_attached c i = true ↔ i ∈ l) ∧
      (∀ a, top c = some a → prev c a = none) ∧
      (∀ b, bottom c = some b → next c b = none) ∧
      walkNext c l.length (top c) = l ∧
      l.head? = top c ∧ l.getLast? = bottom c ∧
      walkPrev c l.length (bottom c) = l.reverse := by
  obtain ⟨l, hl⟩ := reaches_repFull h
  obtain ⟨h₁, h₂, h₃, h₄, _, _⟩ := hl.1
  refine ⟨?_, l, hl, attached_iff_mem hl, ?_, ?_,
    repOK_walkNext hl.1, h₁.symm, h₂.symm, repOK_walkPrev hl.1⟩
  · show c.s_top = none ↔ c.s_bottom = none
    rw [h₁, h₂]
    cases l <;> simp
  · intro a ha
    rw [optAll_iff] at h₃
    have := h₃ a (by rw [← h₁]; exact ha)
    rw [beq_iff_eq] at this
    exact this
  · intro b hb
    rw [optAll_iff] at h₄
    have := h₄ b (by rw [← h₂]; exact hb)
    rw [beq_iff_eq] at this
    exact this

/-- Witness for C1 at the chain built by one default construction on the
fresh chain. -/
theorem chain_walk_invariants_witness :
    Reaches (ctor_default emptyChain 0) ∧
    ((top (ctor_default emptyChain 0) = none ↔
        bottom (ctor_default emptyChain 0) = none) ∧
      ∃ l : List Nat,
        repFull (ctor_default emptyChain 0) l ∧
        (∀ i, is_attached (ctor_default emptyChain 0) i = true ↔ i ∈ l) ∧
        (∀ a, top (ctor_default emptyChain 0) = some a →
          prev (ctor_default emptyChain 0) a = none) ∧
        (∀ b, bottom (ctor_default emptyChain 0) = some b →
          next (ctor_default emptyChain 0) b = none) ∧
        walkNext (ctor_default emptyChain 0) l.length (top (ctor_default emptyChain 0)) = l ∧
        l.head? = top (ctor_default emptyChain 0) ∧
        l.getLast? = bottom (ctor_default emptyChain 0) ∧
        walkPrev (ctor_default emptyChain 0) l.length (bottom (ctor_default emptyChain 0)) = l.reverse) :=
  ⟨Reaches.attachDefault emptyChain 0 Reaches.init (by decide),
    chain_walk_invariants _ (Reaches.attachDefault emptyChain 0 Reaches.init (by decide))⟩

/-- C3: constructing a haven captures the anchors and resets them to
empty, so nested code sees an empty chain — any chain reachable by
nested operations never contains a hidden outer node; destroying the
haven writes the captured anchors back verbatim, so if every node
attached during the haven's lifetime has been detached by exit (the
nested chain is empty again), the entire chain state equals the
pre-haven state `c`. -/
theorem haven_hides_and_restores (c : Chain) (l : List Nat) (h : repFull c l) :
    (haven_ctor c).1 = ⟨top c, bottom c⟩ ∧
    top (haven_ctor c).2 = none ∧
    bottom (haven_ctor c).2 = none ∧
    (∀ c₂, Nested l (haven_ctor c).2 c₂ →
      ∃ l₂, repOK c₂ l₂ ∧ ∀ u ∈ l₂, u ∉ l) ∧
    (∀ c₂, Nested l (haven_ctor c).2 c₂ → top c₂ = none →
      haven_dtor (haven_ctor c).1 c₂ = c) := by
  refine ⟨rfl, rfl, rfl, ?_, ?_⟩
  · intro c₂ hn
    obtain ⟨l₂, hrep, hdisj, _, _⟩ := nested_inv hn rfl rfl (fun i hi => h.2 i hi)
    exact ⟨l₂, hrep, hdisj⟩
  · intro c₂ hn htop2
    obtain ⟨l₂, hrep, hdisj, hav, hclean⟩ :=
      nested_inv hn rfl rfl (fun i hi => h.2 i hi)
    have hl₂nil : l₂ = [] := by
      cases l₂ with
      | nil => rfl
      | cons a tl =>
        have hsome : c₂.s_top = some a := hrep.1
        have hnone : c₂.s_top = none := htop2
        rw [hnone] at hsome
        cases hsome
    subst hl₂nil
    apply Chain.ext_mem
    · intro j
      show c₂.mem j = c.mem j
      by_cases hjl : j ∈ l
      · exact hav j hjl
      · rw [hclean j (by simp) hjl]
        exact (h.2 j hjl).symm
    · rfl
    · rfl

/-- Witness for C3 on the two-node chain. -/
theorem haven_hides_and_restores_witness :
    repFull cBase [1, 2] ∧
    ((haven_ctor cBase).1 = ⟨top cBase, bottom cBase⟩ ∧
      top (haven_ctor cBase).2 = none ∧
      bottom (haven_ctor cBase).2 = none ∧
      (∀ c₂, Nested [1, 2] (haven_ctor cBase).2 c₂ →
        ∃ l₂, repOK c₂ l₂ ∧ ∀ u ∈ l₂, u ∉ [1, 2]) ∧
      (∀ c₂, Nested [1, 2] (haven_ctor cBase).2 c₂ → top c₂ = none →
        haven_dtor (haven_ctor cBase).1 c₂ = cBase)) :=
  ⟨cBase_repFull, haven_hides_and_restores cBase [1, 2] cBase_repFull⟩

end Scoped
